import Mathlib

/-!
Shallow embedding of the lazy-generator library (range / enumerate / zip)
from the Cpp-Python-Util-Functions-Wrapper repository.

Conventions of the embedding:
* `int64_t` values are Lean `Int`s; every arithmetic operation the C++ code
  performs on an `int64_t` is wrapped with `wrap64`, which reduces the
  mathematical result into the two's-complement interval `[-2^63, 2^63)`
  (signed 64-bit wraparound).
* An iterator (position marker) into a sequence is a `Nat` offset into the
  Lean `List` that models the sequence; `std::begin` is offset `0`,
  `std::end` is the list's length, `++it` is `+ 1`, `it != end` is
  `offset ≠ length`, and `*it` is `List.get?` at the offset.
* Each generator's C++ member functions `operator*` / `operator++` /
  `explicit operator bool` are embedded as functions named `current` /
  `advance` / `has_more`, following the iteration-state protocol the
  library implements.
-/

namespace UtilGen

/-- Two's-complement reduction of an integer into the signed 64-bit
interval `[-2^63, 2^63)`; models wraparound of `int64_t` arithmetic. -/
def wrap64 (x : Int) : Int := (x + 2 ^ 63) % 2 ^ 64 - 2 ^ 63

theorem wrap64_eq_self {x : Int} (h1 : -2 ^ 63 ≤ x) (h2 : x < 2 ^ 63) :
    wrap64 x = x := by
  unfold wrap64
  omega

theorem wrap64_wrap_add (x y : Int) : wrap64 (wrap64 x + y) = wrap64 (x + y) := by
  unfold wrap64
  omega

/-- Embeds `RangeImpl` from `src/utilities/range.h` (one field per C++ data
member).  The constructor stores `val_ = begin`, `step_ = step`,
`comparison_mod_ = (step < 0 ? -1 : 1)` and
`modded_end_ = end * comparison_mod_` (an `int64_t` multiplication, hence
wrapped). -/
structure RangeImpl where
  val_ : Int
  step_ : Int
  comparison_mod_ : Int
  modded_end_ : Int
deriving DecidableEq

/-- The `RangeImpl(begin, end, step)` constructor. -/
def RangeImpl.init (b e s : Int) : RangeImpl :=
  { val_ := b
    step_ := s
    comparison_mod_ := if s < 0 then -1 else 1
    modded_end_ := wrap64 (e * (if s < 0 then -1 else 1)) }

/-- `RangeImpl::operator*` : `return val_;`. -/
def RangeImpl.current (r : RangeImpl) : Int := r.val_

/-- `RangeImpl::operator++` : `val_ += step_;` (wrapping `int64_t` add). -/
def RangeImpl.advance (r : RangeImpl) : RangeImpl :=
  { r with val_ := wrap64 (r.val_ + r.step_) }

/-- `RangeImpl::operator bool` : `(val_ * comparison_mod_) < modded_end_`
(the multiplication is an `int64_t` operation, hence wrapped). -/
def RangeImpl.has_more (r : RangeImpl) : Bool :=
  wrap64 (r.val_ * r.comparison_mod_) < r.modded_end_

/-- Iterated `advance`. -/
def RangeImpl.advanceN (r : RangeImpl) : Nat → RangeImpl
  | 0 => r
  | n + 1 => (r.advanceN n).advance

/-- The finite trace of values an exhaustive loop over the generator
yields, cut off after `fuel` steps: while `has_more`, emit `current` and
`advance`. -/
def RangeImpl.run : Nat → RangeImpl → List Int
  | 0, _ => []
  | n + 1, r => if r.has_more then r.current :: RangeImpl.run n r.advance else []

/-- The `range(end)` overload: begin `0`, step `1`. -/
def range1 (e : Int) : RangeImpl := RangeImpl.init 0 e 1

/-- The `range(begin, end)` overload: step `1`. -/
def range2 (b e : Int) : RangeImpl := RangeImpl.init b e 1

/-- The `range(begin, end, step)` overload. -/
def range3 (b e s : Int) : RangeImpl := RangeImpl.init b e s

/-- Reference sequence written from the spec's description of `range`:
yield the running value and add `step` while the value is strictly below
`end` (ascending, `step > 0`) resp. strictly above `end` (descending,
`step < 0`), with exact (non-wrapping) integer arithmetic. -/
def specYield : Nat → Int → Int → Int → List Int
  | 0, _, _, _ => []
  | n + 1, v, e, s =>
    if (if s < 0 then e < v else v < e) then v :: specYield n (v + s) e s else []

theorem run_pos_aux (s e : Int) (hs : 0 < s) (hov : e + s ≤ 2 ^ 63) :
    ∀ (fuel : Nat) (v : Int), -2 ^ 63 ≤ v → v < 2 ^ 63 →
      RangeImpl.run fuel ⟨v, s, 1, e⟩ = specYield fuel v e s := by
  intro fuel
  induction fuel with
  | zero => intro v _ _; rfl
  | succ n ih =>
    intro v hv1 hv2
    have hsneg : ¬ s < 0 := by omega
    have hwv : wrap64 (v * 1) = v := by
      rw [mul_one]; exact wrap64_eq_self hv1 hv2
    simp only [RangeImpl.run, RangeImpl.has_more, RangeImpl.current, RangeImpl.advance,
      specYield, hsneg, if_false, hwv]
    by_cases hlt : v < e
    · have hadv : wrap64 (v + s) = v + s := wrap64_eq_self (by omega) (by omega)
      rw [if_pos (by simpa using hlt), if_pos hlt, hadv, ih (v + s) (by omega) (by omega)]
    · rw [if_neg (by simpa using hlt), if_neg hlt]

theorem run_neg_aux (s e : Int) (hs : s < 0) (he2 : e < 2 ^ 63) (hov : -2 ^ 63 ≤ e + s) :
    ∀ (fuel : Nat) (v : Int), -2 ^ 63 < v → v < 2 ^ 63 →
      RangeImpl.run fuel ⟨v, s, -1, -e⟩ = specYield fuel v e s := by
  intro fuel
  induction fuel with
  | zero => intro v _ _; rfl
  | succ n ih =>
    intro v hv1 hv2
    have hwv : wrap64 (v * -1) = -v := by
      rw [mul_neg_one]; exact wrap64_eq_self (by omega) (by omega)
    simp only [RangeImpl.run, RangeImpl.has_more, RangeImpl.current, RangeImpl.advance,
      specYield, hs, if_true, hwv]
    by_cases hlt : e < v
    · have hadv : wrap64 (v + s) = v + s := wrap64_eq_self (by omega) (by omega)
      rw [if_pos (by simp only [decide_eq_true_eq]; omega), if_pos hlt, hadv,
        ih (v + s) (by omega) (by omega)]
    · rw [if_neg (by simp only [decide_eq_true_eq]; omega), if_neg hlt]

theorem specYield_step_one : ∀ (fuel k : Nat) (v : Int), k ≤ fuel →
    specYield fuel v (v + (k : Int)) 1 =
      (List.range k).map (fun i : Nat => v + (i : Int)) := by
  intro fuel
  induction fuel with
  | zero =>
    intro k v hk
    have : k = 0 := by omega
    subst this
    rfl
  | succ n ih =>
    intro k v hk
    match k with
    | 0 => simp [specYield]
    | j + 1 =>
      have hone : ¬ (1 : Int) < 0 := by omega
      simp only [specYield, hone, if_false]
      rw [if_pos (by push_cast; omega)]
      have hpush : v + ((j + 1 : Nat) : Int) = (v + 1) + (j : Int) := by push_cast; ring
      rw [hpush, ih j (v + 1) (by omega)]
      rw [List.range_succ_eq_map, List.map_cons, List.map_map]
      congr 1
      · omega
      · apply List.map_congr_left
        intro i _
        simp only [Function.comp_apply]
        push_cast
        ring

/-- C2: for 0 ≤ end < 2^63, `range(end)` yields exactly 0,1,...,end-1; for
step > 0 (resp. step < 0), `range(begin,end,step)` yields begin,
begin+step, ... while strictly below (resp. above) `end`, provided the
progression incurs no 64-bit overflow (for step > 0: end + step ≤ 2^63;
for step < 0: -2^63 ≤ end + step and -2^63 < begin); in particular
`range(2,11,3)` yields 2,5,8 and `range(3,7)` yields 3,4,5,6, and
`range(0)` yields nothing. -/
theorem range_yields_arithmetic_progression :
    (∀ (e : Int) (fuel : Nat), 0 ≤ e → e < 2 ^ 63 → e.toNat ≤ fuel →
        RangeImpl.run fuel (range1 e) = (List.range e.toNat).map (fun i : Nat => (i : Int)))
    ∧ (∀ (b e s : Int) (fuel : Nat), 0 < s → -2 ^ 63 ≤ b → b < 2 ^ 63 → -2 ^ 63 ≤ e →
        e + s ≤ 2 ^ 63 →
        RangeImpl.run fuel (range3 b e s) = specYield fuel b e s)
    ∧ (∀ (b e s : Int) (fuel : Nat), s < 0 → -2 ^ 63 < b → b < 2 ^ 63 → e < 2 ^ 63 →
        -2 ^ 63 ≤ e + s →
        RangeImpl.run fuel (range3 b e s) = specYield fuel b e s)
    ∧ RangeImpl.run 4 (range3 2 11 3) = [2, 5, 8]
    ∧ RangeImpl.run 5 (range2 3 7) = [3, 4, 5, 6]
    ∧ RangeImpl.run 1 (range1 0) = [] := by
  have hpos : ∀ (b e s : Int) (fuel : Nat), 0 < s → -2 ^ 63 ≤ b → b < 2 ^ 63 → -2 ^ 63 ≤ e →
      e + s ≤ 2 ^ 63 →
      RangeImpl.run fuel (range3 b e s) = specYield fuel b e s := by
    intro b e s fuel hs hb1 hb2 he1 hov
    have hsneg : ¬ s < 0 := by omega
    have hwe : wrap64 (e * 1) = e := by
      rw [mul_one]; exact wrap64_eq_self he1 (by omega)
    simp only [range3, RangeImpl.init, hsneg, if_false, hwe]
    exact run_pos_aux s e hs hov fuel b hb1 hb2
  refine ⟨?_, hpos, ?_, ?_, ?_, ?_⟩
  · intro e fuel he1 he2 hfuel
    have h1 : RangeImpl.run fuel (range1 e) = specYield fuel 0 e 1 := by
      have h2 := hpos 0 e 1 fuel (by omega) (by omega) (by omega) (by omega) (by omega)
      simpa [range1, range3] using h2
    rw [h1]
    have h3 := specYield_step_one fuel e.toNat 0 hfuel
    have he : (0 : Int) + (e.toNat : Int) = e := by omega
    rw [he] at h3
    rw [h3]
    apply List.map_congr_left
    intro i _
    omega
  · intro b e s fuel hs hb1 hb2 he2 hov
    have hwe : wrap64 (e * -1) = -e := by
      rw [mul_neg_one]; exact wrap64_eq_self (by omega) (by omega)
    simp only [range3, RangeImpl.init, hs, if_true, hwe]
    exact run_neg_aux s e hs he2 hov fuel b hb1 hb2
  · decide
  · decide
  · decide

/-- C2 counterexample: at begin = 2^63 - 2, end = 2^63 - 1, step = 2 the
second `val_ += step_` wraps around, so the generator emits a second value
(-2^63, still below end) where the claimed arithmetic progression stops
after one element. -/
theorem range_yields_counterexample :
    RangeImpl.run 2 (range3 (2 ^ 63 - 2) (2 ^ 63 - 1) 2) = [2 ^ 63 - 2, -2 ^ 63] ∧
    specYield 2 (2 ^ 63 - 2) (2 ^ 63 - 1) 2 = [2 ^ 63 - 2] := by
  constructor <;> decide

/-- C2 witness: the amended theorem applied at `range(5)`. -/
theorem range_yields_arithmetic_progression_witness :
    RangeImpl.run 5 (range1 5) = (List.range (5 : Int).toNat).map (fun i : Nat => (i : Int)) :=
  range_yields_arithmetic_progression.1 5 5 (by decide) (by decide) (by decide)

/-- C6 amended: the continuation predicate `(value * sign(step)) <
(end * sign(step))` as computed in 64-bit arithmetic agrees with the
directional comparison (value < end for step > 0, value > end for
step < 0) whenever neither value nor end is -2^63 (negating -2^63
overflows); at -2^63 the two disagree. -/
theorem range_continuation_predicate_directional :
    ∀ (v e s : Int), s ≠ 0 → -2 ^ 63 < v → v < 2 ^ 63 → -2 ^ 63 < e → e < 2 ^ 63 →
      (RangeImpl.init v e s).has_more =
        (if s < 0 then decide (e < v) else decide (v < e)) := by
  intro v e s _ hv1 hv2 he1 he2
  by_cases hs : s < 0
  · have hwv : wrap64 (v * -1) = -v := by
      rw [mul_neg_one]; exact wrap64_eq_self (by omega) (by omega)
    have hwe : wrap64 (e * -1) = -e := by
      rw [mul_neg_one]; exact wrap64_eq_self (by omega) (by omega)
    simp only [RangeImpl.init, RangeImpl.has_more, hs, if_true, hwv, hwe]
    simp [neg_lt_neg_iff]
  · have hwv : wrap64 (v * 1) = v := by
      rw [mul_one]; exact wrap64_eq_self (by omega) (by omega)
    have hwe : wrap64 (e * 1) = e := by
      rw [mul_one]; exact wrap64_eq_self (by omega) (by omega)
    simp only [RangeImpl.init, RangeImpl.has_more, hs, if_false, hwv, hwe]

/-- C6 counterexample: with value 0, end -2^63, step -1, the directional
comparison value > end holds, yet the computed predicate is false because
`end * -1` wraps back to -2^63. -/
theorem range_continuation_predicate_counterexample :
    (RangeImpl.init 0 (-2 ^ 63) (-1)).has_more = false ∧ ((-2 ^ 63 : Int) < 0) := by
  constructor <;> decide

/-- C6 witness: the amended theorem applied at value 5, end 7, step 1. -/
theorem range_continuation_predicate_directional_witness :
    (RangeImpl.init 5 7 1).has_more =
      (if (1 : Int) < 0 then decide ((7 : Int) < 5) else decide ((5 : Int) < 7)) :=
  range_continuation_predicate_directional 5 7 1 (by decide) (by decide) (by decide)
    (by decide) (by decide)

/-- C4: the code has no step == 0 check anywhere — `range(0, 1, 0)`
constructs successfully, `has_more` is true, `advance` is the identity,
and `has_more` stays true after any number of advances: the generator
silently loops forever instead of failing fast. -/
theorem range_step_zero_silently_loops :
    (range3 0 1 0).has_more = true ∧
    (range3 0 1 0).advance = range3 0 1 0 ∧
    ∀ n : Nat, ((range3 0 1 0).advanceN n).has_more = true := by
  have hfix : ∀ n : Nat, (range3 0 1 0).advanceN n = range3 0 1 0 := by
    intro n
    induction n with
    | zero => rfl
    | succ k ih =>
      show ((range3 0 1 0).advanceN k).advance = range3 0 1 0
      rw [ih]
      decide
  exact ⟨by decide, by decide, fun n => by rw [hfix n]; decide⟩

/-- Embeds `EnumerateState<UnderlyingIterator>` from
`src/utilities/enumerate.h` (the identical struct also appears in
`src/single header/utilities.h`): the running index `idx_` plus the
underlying iterator `iter_`, modeled as a `Nat` offset into the wrapped
list. -/
structure EnumerateState where
  idx_ : Int
  iter_ : Nat
deriving DecidableEq

/-- `EnumerateState::get<N>`: returns `idx_` for N = 0, `*iter_` for N = 1,
and for every other N falls through both `if constexpr` branches with no
return value, modeled as `none`.  The wrapped list is passed explicitly
because the iterator model is a bare offset. -/
def EnumerateState.get {α : Type} (l : List α) (st : EnumerateState) (n : Nat) :
    Option (Int ⊕ α) :=
  if n = 0 then some (Sum.inl st.idx_)
  else if n = 1 then (l.get? st.iter_).map Sum.inr
  else none

/-- `enumerate::operator++` : `++state_.idx_; ++state_.iter_;` (the index
increment is a wrapping `int64_t` increment). -/
def EnumerateState.advance (st : EnumerateState) : EnumerateState :=
  ⟨wrap64 (st.idx_ + 1), st.iter_ + 1⟩

/-- Iterated `advance`. -/
def EnumerateState.advanceN (st : EnumerateState) : Nat → EnumerateState
  | 0 => st
  | n + 1 => (st.advanceN n).advance

/-- Embeds the `enumerate` class from `src/utilities/enumerate.h`: the
wrapped iterable and the caller-chosen starting index. -/
structure enumerate (α : Type) where
  iterable_ : List α
  starting_idx_ : Int

/-- The one-argument construction `enumerate{some_iterable}`, where
`starting_idx_` keeps its default value 0. -/
def enumerate.mk1 {α : Type} (S : List α) : enumerate α := ⟨S, 0⟩

/-- The initial `state_` member: `{starting_idx_, std::begin(iterable_)}`
(the begin iterator is offset 0). -/
def enumerate.state {α : Type} (g : enumerate α) : EnumerateState :=
  ⟨g.starting_idx_, 0⟩

/-- `enumerate::operator bool` : `state_.iter_ != std::end(iterable_)`
(the end iterator is the list's length). -/
def enumerate.has_more {α : Type} (g : enumerate α) (st : EnumerateState) : Bool :=
  st.iter_ != g.iterable_.length

/-- The observable (index, element) pair of a state: positions 0 and 1 of
the bundle `operator*` hands to a structured binding, i.e. `get<0>` and
`get<1>` (`*iter_` is `get?` at the offset). -/
def enumerate.obs {α : Type} (g : enumerate α) (st : EnumerateState) : Int × Option α :=
  (st.idx_, g.iterable_.get? st.iter_)

/-- The finite trace of (index, element) pairs an exhaustive loop over the
generator yields, cut off after `fuel` steps. -/
def enumerate.run {α : Type} (g : enumerate α) : Nat → EnumerateState → List (Int × Option α)
  | 0, _ => []
  | n + 1, st => if g.has_more st then g.obs st :: g.run n st.advance else []

theorem enumerate_run_eq {α : Type} (S : List α) (s0 : Int) :
    ∀ (fuel k : Nat) (j : Int), k ≤ S.length → S.length - k ≤ fuel →
      -2 ^ 63 ≤ j → j + ((S.length - k : Nat) : Int) ≤ 2 ^ 63 →
      enumerate.run ⟨S, s0⟩ fuel ⟨j, k⟩ =
        (List.range (S.length - k)).map
          (fun i : Nat => (j + (i : Int), S.get? (k + i))) := by
  intro fuel
  induction fuel with
  | zero =>
    intro k j hk hfuel _ _
    have h0 : S.length - k = 0 := by omega
    simp [enumerate.run, h0]
  | succ n ih =>
    intro k j hk hfuel hj1 hj2
    by_cases hke : k = S.length
    · have h0 : S.length - k = 0 := by omega
      simp [enumerate.run, enumerate.has_more, hke, h0]
    · have hklt : k < S.length := by omega
      simp only [enumerate.run, enumerate.has_more, enumerate.obs, EnumerateState.advance]
      rw [if_pos (by simpa using hke)]
      have hm : S.length - k = (S.length - (k + 1)) + 1 := by omega
      rw [hm, List.range_succ_eq_map, List.map_cons, List.map_map]
      by_cases hwrap : j + 1 < 2 ^ 63
      · have hadv : wrap64 (j + 1) = j + 1 := wrap64_eq_self (by omega) hwrap
        rw [hadv, ih (k + 1) (j + 1) (by omega) (by omega) (by omega) (by omega)]
        congr 1
        · simp
        · apply List.map_congr_left
          intro i _
          simp only [Function.comp_apply, Prod.mk.injEq]
          constructor
          · push_cast; ring
          · congr 1; omega
      · have hlast : S.length = k + 1 := by omega
        have hstop : enumerate.run ⟨S, s0⟩ n ⟨wrap64 (j + 1), k + 1⟩ = [] := by
          cases n <;> simp [enumerate.run, enumerate.has_more, hlast]
        rw [hstop]
        have h0 : S.length - (k + 1) = 0 := by omega
        simp [h0]

/-- C3 amended: for any sequence S and starting index s with no 64-bit
index overflow (s + length(S) ≤ 2^63), enumerate(S, s) yields exactly
length(S) pairs (s, S[0]), ..., (s+L-1, S[L-1]); the starting index
defaults to 0 when omitted; an empty sequence yields zero pairs; and the
two spec scenarios hold concretely.  Without the overflow bound the index
wraps (see the counterexample). -/
theorem enumerate_yields_indexed_pairs :
    (∀ (α : Type) (S : List α) (s : Int) (fuel : Nat), S.length ≤ fuel →
        -2 ^ 63 ≤ s → s + (S.length : Int) ≤ 2 ^ 63 →
        enumerate.run ⟨S, s⟩ fuel (enumerate.state ⟨S, s⟩) =
          (List.range S.length).map (fun i : Nat => (s + (i : Int), S.get? i)))
    ∧ (∀ (α : Type) (S : List α), enumerate.mk1 S = enumerate.mk S 0)
    ∧ (∀ (α : Type) (s : Int) (fuel : Nat),
        enumerate.run ⟨([] : List α), s⟩ fuel (enumerate.state ⟨([] : List α), s⟩) = [])
    ∧ enumerate.run ⟨([1, 2, 3] : List Int), 0⟩ 3 (enumerate.state ⟨([1, 2, 3] : List Int), 0⟩) =
        [(0, some 1), (1, some 2), (2, some 3)]
    ∧ enumerate.run ⟨([1, 2, 3] : List Int), 10⟩ 3 (enumerate.state ⟨([1, 2, 3] : List Int), 10⟩) =
        [(10, some 1), (11, some 2), (12, some 3)] := by
  refine ⟨?_, fun α S => rfl, ?_, by decide, by decide⟩
  · intro α S s fuel hfuel hs1 hs2
    have h := enumerate_run_eq S s fuel 0 s (by omega) (by omega) hs1 (by simpa using hs2)
    rw [show enumerate.state ⟨S, s⟩ = ⟨s, 0⟩ from rfl, h]
    simp only [Nat.sub_zero]
    apply List.map_congr_left
    intro i _
    simp
  · intro α s fuel
    cases fuel <;> simp [enumerate.run, enumerate.has_more, enumerate.state]

/-- C3 counterexample: starting at index 2^63 - 1 over a two-element
sequence, the second yielded index is the wrapped value -2^63, not the
claimed s + 1 = 2^63. -/
theorem enumerate_yields_counterexample :
    enumerate.run ⟨([10, 20] : List Int), 2 ^ 63 - 1⟩ 2
        (enumerate.state ⟨([10, 20] : List Int), 2 ^ 63 - 1⟩) =
      [(2 ^ 63 - 1, some 10), (-2 ^ 63, some 20)] ∧
    enumerate.run ⟨([10, 20] : List Int), 2 ^ 63 - 1⟩ 2
        (enumerate.state ⟨([10, 20] : List Int), 2 ^ 63 - 1⟩) ≠
      [(2 ^ 63 - 1, some 10), (2 ^ 63, some 20)] := by
  constructor <;> decide

/-- C3 witness: the amended theorem applied to the one-element sequence
[7] with starting index 0. -/
theorem enumerate_yields_indexed_pairs_witness :
    enumerate.run ⟨([7] : List Int), 0⟩ 1 (enumerate.state ⟨([7] : List Int), 0⟩) =
      (List.range ([7] : List Int).length).map
        (fun i : Nat => ((0 : Int) + (i : Int), ([7] : List Int).get? i)) :=
  enumerate_yields_indexed_pairs.1 Int [7] 0 1 (by decide) (by decide) (by decide)

/-- C8 amended: the index is initialized to the caller's starting index;
each advance applies a wrapping int64 increment; after n advances the
index equals wrap64(start + n), which is exactly start + n whenever
start + n < 2^63 (no 64-bit overflow). -/
theorem enumerate_index_invariant :
    (∀ (α : Type) (S : List α) (s : Int), (enumerate.state ⟨S, s⟩).idx_ = s)
    ∧ (∀ st : EnumerateState, st.advance.idx_ = wrap64 (st.idx_ + 1))
    ∧ (∀ (α : Type) (S : List α) (s : Int) (n : Nat), -2 ^ 63 ≤ s → s < 2 ^ 63 →
        ((enumerate.state ⟨S, s⟩).advanceN n).idx_ = wrap64 (s + (n : Int)))
    ∧ (∀ (α : Type) (S : List α) (s : Int) (n : Nat), -2 ^ 63 ≤ s →
        s + (n : Int) < 2 ^ 63 →
        ((enumerate.state ⟨S, s⟩).advanceN n).idx_ = s + (n : Int)) := by
  have key : ∀ (α : Type) (S : List α) (s : Int) (n : Nat), -2 ^ 63 ≤ s → s < 2 ^ 63 →
      ((enumerate.state ⟨S, s⟩).advanceN n).idx_ = wrap64 (s + (n : Int)) := by
    intro α S s n hs1 hs2
    induction n with
    | zero =>
      show s = wrap64 (s + ((0 : Nat) : Int))
      rw [show s + ((0 : Nat) : Int) = s by push_cast; ring]
      exact (wrap64_eq_self hs1 hs2).symm
    | succ m ihm =>
      show (((enumerate.state ⟨S, s⟩).advanceN m).advance).idx_ = wrap64 (s + ((m + 1 : Nat) : Int))
      rw [EnumerateState.advance, ihm, wrap64_wrap_add]
      have harg : s + (m : Int) + 1 = s + ((m + 1 : Nat) : Int) := by push_cast; ring
      rw [harg]
  refine ⟨fun α S s => rfl, fun st => rfl, key, ?_⟩
  intro α S s n hs1 hs2
  rw [key α S s n hs1 (by omega)]
  exact wrap64_eq_self (by omega) hs2

/-- C8 counterexample: starting at index 2^63 - 1, a single advance wraps
the index to -2^63, so the index no longer equals start + advances. -/
theorem enumerate_index_invariant_counterexample :
    ((enumerate.state ⟨([0, 0] : List Int), 2 ^ 63 - 1⟩).advanceN 1).idx_ = -2 ^ 63 ∧
    (2 ^ 63 - 1 : Int) + 1 ≠ -2 ^ 63 := by
  constructor <;> decide

/-- C8 witness: the amended theorem applied at start 0 after 2 advances. -/
theorem enumerate_index_invariant_witness :
    ((enumerate.state ⟨([] : List Int), 0⟩).advanceN 2).idx_ = (0 : Int) + ((2 : Nat) : Int) :=
  enumerate_index_invariant.2.2.2 Int [] 0 2 (by decide) (by decide)

/-- Embeds `EnumeratorState<UnderlyingIterator>` from
`src/include/util/gen/enumerator.h`. -/
structure EnumeratorState where
  idx_ : Int
  iter_ : Nat
deriving DecidableEq

/-- `EnumeratorImpl::operator++` : `++state_.idx_; ++state_.iter_;`. -/
def EnumeratorState.advance (st : EnumeratorState) : EnumeratorState :=
  ⟨wrap64 (st.idx_ + 1), st.iter_ + 1⟩

/-- Iterated `advance`. -/
def EnumeratorState.advanceN (st : EnumeratorState) : Nat → EnumeratorState
  | 0 => st
  | n + 1 => (st.advanceN n).advance

/-- Embeds `EnumeratorImpl<Iterable>` from
`src/include/util/gen/enumerator.h`. -/
structure EnumeratorImpl (α : Type) where
  iterable_ : List α
  starting_idx_ : Int

/-- The initial `state_` member: `{starting_idx_, std::begin(iterable_)}`. -/
def EnumeratorImpl.state {α : Type} (g : EnumeratorImpl α) : EnumeratorState :=
  ⟨g.starting_idx_, 0⟩

/-- `EnumeratorImpl::operator bool` : `state_.iter_ != std::end(iterable_)`. -/
def EnumeratorImpl.has_more {α : Type} (g : EnumeratorImpl α) (st : EnumeratorState) : Bool :=
  st.iter_ != g.iterable_.length

/-- The observable (index, element) pair of a state (`get<0>`, `get<1>`). -/
def EnumeratorImpl.obs {α : Type} (g : EnumeratorImpl α) (st : EnumeratorState) :
    Int × Option α :=
  (st.idx_, g.iterable_.get? st.iter_)

/-- C10: the standalone `enumerate` generator and the Generator-based
`EnumeratorImpl` are behaviorally equivalent: from the same sequence and
starting index, after any number of advances the two states agree
componentwise, and `has_more` and the observable (index, element) pair
agree at every step. -/
theorem enumerate_enumerator_equivalent :
    ∀ (α : Type) (S : List α) (s : Int) (n : Nat),
      ((enumerate.state ⟨S, s⟩).advanceN n).idx_ =
          ((EnumeratorImpl.state ⟨S, s⟩).advanceN n).idx_
      ∧ ((enumerate.state ⟨S, s⟩).advanceN n).iter_ =
          ((EnumeratorImpl.state ⟨S, s⟩).advanceN n).iter_
      ∧ enumerate.has_more ⟨S, s⟩ ((enumerate.state ⟨S, s⟩).advanceN n) =
          EnumeratorImpl.has_more ⟨S, s⟩ ((EnumeratorImpl.state ⟨S, s⟩).advanceN n)
      ∧ enumerate.obs ⟨S, s⟩ ((enumerate.state ⟨S, s⟩).advanceN n) =
          EnumeratorImpl.obs ⟨S, s⟩ ((EnumeratorImpl.state ⟨S, s⟩).advanceN n) := by
  intro α S s n
  have key : ((enumerate.state ⟨S, s⟩).advanceN n).idx_ =
        ((EnumeratorImpl.state ⟨S, s⟩).advanceN n).idx_
      ∧ ((enumerate.state ⟨S, s⟩).advanceN n).iter_ =
        ((EnumeratorImpl.state ⟨S, s⟩).advanceN n).iter_ := by
    induction n with
    | zero => exact ⟨rfl, rfl⟩
    | succ m ihm =>
      refine ⟨?_, ?_⟩
      · show wrap64 (((enumerate.state ⟨S, s⟩).advanceN m).idx_ + 1) =
          wrap64 (((EnumeratorImpl.state ⟨S, s⟩).advanceN m).idx_ + 1)
        rw [ihm.1]
      · show ((enumerate.state ⟨S, s⟩).advanceN m).iter_ + 1 =
          ((EnumeratorImpl.state ⟨S, s⟩).advanceN m).iter_ + 1
        rw [ihm.2]
  refine ⟨key.1, key.2, ?_, ?_⟩
  · show (((enumerate.state ⟨S, s⟩).advanceN n).iter_ != S.length) =
      (((EnumeratorImpl.state ⟨S, s⟩).advanceN n).iter_ != S.length)
    rw [key.2]
  · show (((enumerate.state ⟨S, s⟩).advanceN n).idx_,
        S.get? ((enumerate.state ⟨S, s⟩).advanceN n).iter_) =
      (((EnumeratorImpl.state ⟨S, s⟩).advanceN n).idx_,
        S.get? ((EnumeratorImpl.state ⟨S, s⟩).advanceN n).iter_)
    rw [key.1, key.2]

/-- Embeds the recursive `ZipStorage<IDX, Iterables...>` template from
`src/single header/utilities.h`: one wrapped iterable per node, with the
single-iterable specialization as the base case.  Element types are
unified to one type α: the template's per-position heterogeneity is
type-level only and does not affect iterator movement, step counts, or
which element each position dereferences. -/
inductive ZipStorage (α : Type) : Type
  | last (iterable : List α)
  | cons (iterable : List α) (next_storage : ZipStorage α)

/-- Embeds the recursive `ZipState<IDX, Iterables...>` template: one
iterator (a `Nat` offset into the node's iterable) per node. -/
inductive ZipState : Type
  | last (iterator : Nat)
  | cons (iterator : Nat) (next_state : ZipState)
deriving DecidableEq

/-- The `ZipState(Storage&)` constructor: every node's iterator starts at
`storage.begin()`, offset 0. -/
def ZipState.init {α : Type} : ZipStorage α → ZipState
  | .last _ => .last 0
  | .cons _ s => .cons 0 (ZipState.init s)

/-- `ZipState::operator++` : increments this node's iterator and,
recursively, every remaining node's iterator. -/
def ZipState.inc : ZipState → ZipState
  | .last i => .last (i + 1)
  | .cons i nx => .cons (i + 1) nx.inc

/-- Iterated `inc`. -/
def ZipState.incN (st : ZipState) : Nat → ZipState
  | 0 => st
  | n + 1 => (st.incN n).inc

/-- `ZipState::can_advance` : this node's iterator is not at its storage's
end and, in the recursive case, the remaining nodes can also advance.  A
state whose shape disagrees with the storage's shape never arises from the
constructor; the embedding returns false there. -/
def ZipState.can_advance {α : Type} : ZipState → ZipStorage α → Bool
  | .last i, .last l => i != l.length
  | .cons i nx, .cons l s => i != l.length && nx.can_advance s
  | _, _ => false

/-- `ZipState::get<N>` at recursion depth `idx`: return `*iterator` when
`N = idx`; in the recursive case otherwise recurse into `next_state`, and
in the base case otherwise fall through the lone `if constexpr` with no
return value, modeled as `none`. -/
def ZipState.get {α : Type} : ZipState → ZipStorage α → Nat → Nat → Option α
  | .last i, .last l, idx, n => if n = idx then l.get? i else none
  | .cons i nx, .cons l s, idx, n => if n = idx then l.get? i else nx.get s (idx + 1) n
  | _, _, _, _ => none

/-- The current tuple of the state bundle: position k dereferences the
k-th node's iterator. -/
def ZipState.curr {α : Type} : ZipState → ZipStorage α → List (Option α)
  | .last i, .last l => [l.get? i]
  | .cons i nx, .cons l s => l.get? i :: nx.curr s
  | _, _ => []

/-- The iterators of a state, in node order. -/
def ZipState.iters : ZipState → List Nat
  | .last i => [i]
  | .cons i nx => i :: nx.iters

/-- The zipped iterables, in input order. -/
def ZipStorage.lists {α : Type} : ZipStorage α → List (List α)
  | .last l => [l]
  | .cons l s => l :: s.lists

/-- The arity N of a storage (number of zipped inputs). -/
def ZipStorage.arity {α : Type} : ZipStorage α → Nat
  | .last _ => 1
  | .cons _ s => s.arity + 1

/-- The minimum of the zipped inputs' lengths. -/
def ZipStorage.minLen {α : Type} : ZipStorage α → Nat
  | .last l => l.length
  | .cons l s => min l.length s.minLen

/-- The uniform state shaped like σ with every iterator at offset k. -/
def ZipState.atK {α : Type} : ZipStorage α → Nat → ZipState
  | .last _, k => .last k
  | .cons _ s, k => .cons k (ZipState.atK s k)

/-- The `zip` generator's yielded trace, cut off after `fuel` steps: while
`state_.can_advance(storage_)` (`operator bool`), emit the current tuple
(`operator*` destructured through `get`) and `++state_` (`operator++`). -/
def zipRun {α : Type} (σ : ZipStorage α) : Nat → ZipState → List (List (Option α))
  | 0, _ => []
  | n + 1, st => if st.can_advance σ then st.curr σ :: zipRun σ n st.inc else []

theorem ZipStorage.lists_length {α : Type} (σ : ZipStorage α) :
    σ.lists.length = σ.arity := by
  induction σ with
  | last l => rfl
  | cons l s ih => simp [ZipStorage.lists, ZipStorage.arity, ih]

theorem ZipStorage.arity_pos {α : Type} (σ : ZipStorage α) : 0 < σ.arity := by
  cases σ <;> simp [ZipStorage.arity]

theorem ZipState.iters_length_pos (st : ZipState) : 0 < st.iters.length := by
  cases st <;> simp [ZipState.iters]

theorem ZipState.init_eq_atK {α : Type} (σ : ZipStorage α) :
    ZipState.init σ = ZipState.atK σ 0 := by
  induction σ with
  | last l => rfl
  | cons l s ih => simp [ZipState.init, ZipState.atK, ih]

theorem ZipState.inc_atK {α : Type} (σ : ZipStorage α) (k : Nat) :
    (ZipState.atK σ k).inc = ZipState.atK σ (k + 1) := by
  induction σ with
  | last l => rfl
  | cons l s ih => simp [ZipState.atK, ZipState.inc, ih]

theorem ZipState.iters_atK {α : Type} (σ : ZipStorage α) (k : Nat) :
    (ZipState.atK σ k).iters = List.replicate σ.arity k := by
  induction σ with
  | last l => rfl
  | cons l s ih => simp [ZipState.atK, ZipState.iters, ZipStorage.arity, ih,
      List.replicate_succ]

theorem ZipState.can_advance_atK {α : Type} (σ : ZipStorage α) :
    ∀ k : Nat, k ≤ σ.minLen →
      (ZipState.atK σ k).can_advance σ = decide (k < σ.minLen) := by
  induction σ with
  | last l =>
    intro k hk
    simp only [ZipStorage.minLen] at hk
    simp only [ZipState.atK, ZipState.can_advance, ZipStorage.minLen]
    rw [Bool.eq_iff_iff]
    simp only [bne_iff_ne, ne_eq, decide_eq_true_eq]
    omega
  | cons l s ih =>
    intro k hk
    simp only [ZipStorage.minLen] at hk
    simp only [ZipState.atK, ZipState.can_advance, ZipStorage.minLen,
      ih k (by omega)]
    rw [Bool.eq_iff_iff]
    simp only [Bool.and_eq_true, bne_iff_ne, ne_eq, decide_eq_true_eq]
    omega

theorem ZipState.curr_atK {α : Type} (σ : ZipStorage α) (k : Nat) :
    (ZipState.atK σ k).curr σ = σ.lists.map (fun l => l.get? k) := by
  induction σ with
  | last l => rfl
  | cons l s ih => simp [ZipState.atK, ZipState.curr, ZipStorage.lists, ih]

theorem zipRun_atK {α : Type} (σ : ZipStorage α) :
    ∀ (fuel k : Nat), k ≤ σ.minLen → σ.minLen - k ≤ fuel →
      zipRun σ fuel (ZipState.atK σ k) =
        (List.range (σ.minLen - k)).map
          (fun j : Nat => σ.lists.map (fun l => l.get? (k + j))) := by
  intro fuel
  induction fuel with
  | zero =>
    intro k hk hf
    have h0 : σ.minLen - k = 0 := by omega
    simp [zipRun, h0]
  | succ n ih =>
    intro k hk hf
    by_cases hke : k = σ.minLen
    · have h0 : σ.minLen - k = 0 := by omega
      have hfalse : (ZipState.atK σ k).can_advance σ = false := by
        rw [ZipState.can_advance_atK σ k hk]
        simp [hke]
      simp [zipRun, hfalse, h0]
    · have hklt : k < σ.minLen := by omega
      have htrue : (ZipState.atK σ k).can_advance σ = true := by
        rw [ZipState.can_advance_atK σ k hk]
        simp [hklt]
      simp only [zipRun, htrue, if_true]
      rw [ZipState.curr_atK, ZipState.inc_atK, ih (k + 1) (by omega) (by omega)]
      have hm : σ.minLen - k = (σ.minLen - (k + 1)) + 1 := by omega
      rw [hm, List.range_succ_eq_map, List.map_cons, List.map_map]
      congr 1
      apply List.map_congr_left
      intro j _
      simp only [Function.comp_apply]
      apply List.map_congr_left
      intro l _
      congr 1
      omega

theorem mem_lists_minLen_zero {α : Type} (σ : ZipStorage α)
    (h : ([] : List α) ∈ σ.lists) : σ.minLen = 0 := by
  induction σ with
  | last l =>
    simp only [ZipStorage.lists, List.mem_singleton] at h
    simp [ZipStorage.minLen, ← h]
  | cons l s ih =>
    simp only [ZipStorage.lists, List.mem_cons] at h
    rcases h with h | h
    · simp [ZipStorage.minLen, ← h]
    · simp [ZipStorage.minLen, ih h]

theorem range_map_single_get {α : Type} (S : List α) :
    (List.range S.length).map (fun i : Nat => [S.get? i]) =
      S.map (fun a => [some a]) := by
  induction S with
  | nil => rfl
  | cons a S ih =>
    simp only [List.length_cons, List.range_succ_eq_map, List.map_cons, List.map_map]
    have h2 : (List.range S.length).map
          ((fun i : Nat => [(a :: S).get? i]) ∘ Nat.succ) =
        (List.range S.length).map (fun i : Nat => [S.get? i]) := by
      apply List.map_congr_left
      intro i _
      rfl
    rw [h2, ih, List.get?_cons_zero]

/-- C1: zip over N sequences yields exactly min(L1,...,Ln) tuples, tuple i
holding the sequences' i-th elements in input order; any empty input
yields zero tuples; single-input zip yields one-element tuples of S1's
elements in order; and mismatched lengths stop at the shortest
(scenario E). -/
theorem zip_yields_min_tuples :
    (∀ (α : Type) (σ : ZipStorage α) (fuel : Nat), σ.minLen ≤ fuel →
        zipRun σ fuel (ZipState.init σ) =
          (List.range σ.minLen).map (fun i : Nat => σ.lists.map (fun l => l.get? i)))
    ∧ (∀ (α : Type) (σ : ZipStorage α) (fuel : Nat), ([] : List α) ∈ σ.lists →
        zipRun σ fuel (ZipState.init σ) = [])
    ∧ (∀ (α : Type) (S : List α) (fuel : Nat), S.length ≤ fuel →
        zipRun (ZipStorage.last S) fuel (ZipState.init (ZipStorage.last S)) =
          S.map (fun a => [some a]))
    ∧ zipRun (ZipStorage.cons [1, 2, 3] (ZipStorage.last ([7, 8] : List Int))) 3
        (ZipState.init (ZipStorage.cons [1, 2, 3] (ZipStorage.last ([7, 8] : List Int)))) =
        [[some 1, some 7], [some 2, some 8]] := by
  have main : ∀ (α : Type) (σ : ZipStorage α) (fuel : Nat), σ.minLen ≤ fuel →
      zipRun σ fuel (ZipState.init σ) =
        (List.range σ.minLen).map (fun i : Nat => σ.lists.map (fun l => l.get? i)) := by
    intro α σ fuel hfuel
    rw [ZipState.init_eq_atK, zipRun_atK σ fuel 0 (by omega) (by omega)]
    simp only [Nat.sub_zero]
    apply List.map_congr_left
    intro i _
    apply List.map_congr_left
    intro l _
    congr 1
    omega
  refine ⟨main, ?_, ?_, by decide⟩
  · intro α σ fuel h
    have h0 : σ.minLen = 0 := mem_lists_minLen_zero σ h
    rw [main α σ fuel (by omega), h0]
    rfl
  · intro α S fuel hfuel
    rw [main α (ZipStorage.last S) fuel (by simpa [ZipStorage.minLen] using hfuel)]
    show (List.range S.length).map (fun i : Nat => [S.get? i]) = S.map (fun a => [some a])
    exact range_map_single_get S

/-- C1 witness: the main conjunct applied to zip([1,2],[3,4,5]). -/
theorem zip_yields_min_tuples_witness :
    zipRun (ZipStorage.cons [1, 2] (ZipStorage.last ([3, 4, 5] : List Int))) 2
        (ZipState.init (ZipStorage.cons [1, 2] (ZipStorage.last ([3, 4, 5] : List Int)))) =
      (List.range (ZipStorage.cons [1, 2] (ZipStorage.last ([3, 4, 5] : List Int))).minLen).map
        (fun i : Nat =>
          (ZipStorage.cons [1, 2] (ZipStorage.last ([3, 4, 5] : List Int))).lists.map
            (fun l => l.get? i)) :=
  zip_yields_min_tuples.1 Int
    (ZipStorage.cons [1, 2] (ZipStorage.last ([3, 4, 5] : List Int))) 2 (by decide)

theorem replicate_forall₂_lt {α : Type} (σ : ZipStorage α) (n : Nat) :
    List.Forall₂ (fun i (l : List α) => i < l.length)
        (List.replicate σ.arity n) σ.lists ↔ n < σ.minLen := by
  induction σ with
  | last l =>
    simp [ZipStorage.arity, ZipStorage.lists, ZipStorage.minLen, List.replicate_succ]
  | cons l s ih =>
    simp [ZipStorage.arity, ZipStorage.lists, ZipStorage.minLen, List.replicate_succ,
      ih, Nat.lt_min]

theorem can_advance_iff_forall₂ {α : Type} :
    ∀ (st : ZipState) (σ : ZipStorage α),
      List.Forall₂ (fun i (l : List α) => i ≤ l.length) st.iters σ.lists →
      (st.can_advance σ = true ↔
        List.Forall₂ (fun i (l : List α) => i < l.length) st.iters σ.lists) := by
  intro st
  induction st with
  | last i =>
    intro σ h
    cases σ with
    | last l =>
      simp only [ZipState.iters, ZipStorage.lists, List.forall₂_cons] at h ⊢
      simp only [ZipState.can_advance, bne_iff_ne, ne_eq]
      constructor
      · intro h1
        exact ⟨by omega, List.Forall₂.nil⟩
      · intro h1
        omega
    | cons l s =>
      exfalso
      have hlen := List.Forall₂.length_eq h
      have harity := ZipStorage.lists_length s
      have hpos := ZipStorage.arity_pos s
      simp only [ZipState.iters, ZipStorage.lists, List.length_cons,
        List.length_nil] at hlen
      omega
  | cons i nx ih =>
    intro σ h
    cases σ with
    | last l =>
      exfalso
      have hlen := List.Forall₂.length_eq h
      have hpos := ZipState.iters_length_pos nx
      simp only [ZipState.iters, ZipStorage.lists, List.length_cons,
        List.length_nil] at hlen
      omega
    | cons l s =>
      simp only [ZipState.iters, ZipStorage.lists, List.forall₂_cons] at h ⊢
      simp only [ZipState.can_advance, Bool.and_eq_true, bne_iff_ne, ne_eq,
        ih s h.2]
      constructor
      · rintro ⟨h1, h2⟩
        exact ⟨by omega, h2⟩
      · rintro ⟨h1, h2⟩
        exact ⟨by omega, h2⟩

/-- C5: `operator++` on a ZipState increments every node's iterator by
exactly one, unconditionally; consequently after n advances from
construction all N iterators equal n (each has been advanced the same
number of times); and for any state whose iterators are valid positions
(each at most its own end), `can_advance` is true iff every iterator is
strictly before its own end (shortest-input-wins). -/
theorem zip_advance_lockstep :
    (∀ st : ZipState, st.inc.iters = st.iters.map (fun i => i + 1))
    ∧ (∀ (α : Type) (σ : ZipStorage α) (n : Nat),
        ((ZipState.init σ).incN n).iters = List.replicate σ.arity n)
    ∧ (∀ (α : Type) (σ : ZipStorage α) (st : ZipState),
        List.Forall₂ (fun i (l : List α) => i ≤ l.length) st.iters σ.lists →
        (st.can_advance σ = true ↔
          List.Forall₂ (fun i (l : List α) => i < l.length) st.iters σ.lists)) := by
  refine ⟨?_, ?_, fun α σ st h => can_advance_iff_forall₂ st σ h⟩
  · intro st
    induction st with
    | last i => rfl
    | cons i nx ih => simp [ZipState.inc, ZipState.iters, ih]
  · intro α σ n
    have hatK : (ZipState.init σ).incN n = ZipState.atK σ n := by
      induction n with
      | zero => exact ZipState.init_eq_atK σ
      | succ m ihm =>
        show ((ZipState.init σ).incN m).inc = ZipState.atK σ (m + 1)
        rw [ihm, ZipState.inc_atK]
    rw [hatK, ZipState.iters_atK]

/-- C5 witness: the can_advance conjunct applied to zip([1],[2,3]) in its
initial state. -/
theorem zip_advance_lockstep_witness :
    (ZipState.cons 0 (ZipState.last 0)).can_advance
        (ZipStorage.cons [1] (ZipStorage.last ([2, 3] : List Int))) = true ↔
      List.Forall₂ (fun i (l : List Int) => i < l.length)
        (ZipState.cons 0 (ZipState.last 0)).iters
        (ZipStorage.cons [1] (ZipStorage.last ([2, 3] : List Int))).lists :=
  zip_advance_lockstep.2.2 Int
    (ZipStorage.cons [1] (ZipStorage.last ([2, 3] : List Int)))
    (ZipState.cons 0 (ZipState.last 0))
    (by constructor
        · decide
        · constructor
          · decide
          · exact List.Forall₂.nil)

theorem zip_get_ge_arity {α : Type} :
    ∀ (st : ZipState) (σ : ZipStorage α) (idx n : Nat), idx + σ.arity ≤ n →
      ZipState.get st σ idx n = none := by
  intro st
  induction st with
  | last i =>
    intro σ idx n h
    cases σ with
    | last l =>
      simp only [ZipStorage.arity] at h
      simp only [ZipState.get]
      rw [if_neg (by omega)]
    | cons l s => rfl
  | cons i nx ih =>
    intro σ idx n h
    cases σ with
    | last l => rfl
    | cons l s =>
      simp only [ZipStorage.arity] at h
      simp only [ZipState.get]
      rw [if_neg (by omega)]
      exact ih s (idx + 1) n (by omega)

/-- C7: positional `get` beyond the declared arity silently yields no
value (the `if constexpr` chain falls through, modeled as `none`) instead
of failing: EnumerateState (arity 2) returns none for every position ≥ 2,
and ZipState (arity N, queried from the top node at depth 0) returns none
for every position ≥ N. -/
theorem get_out_of_range_noops :
    (∀ (α : Type) (l : List α) (st : EnumerateState) (n : Nat), 2 ≤ n →
        EnumerateState.get l st n = none)
    ∧ (∀ (α : Type) (σ : ZipStorage α) (st : ZipState) (n : Nat), σ.arity ≤ n →
        ZipState.get st σ 0 n = none) := by
  constructor
  · intro α l st n h
    simp only [EnumerateState.get]
    rw [if_neg (by omega), if_neg (by omega)]
  · intro α σ st n h
    exact zip_get_ge_arity st σ 0 n (by omega)

/-- C7 witness: get at position 2 of an arity-2 EnumerateState and at
position 2 of an arity-2 ZipState. -/
theorem get_out_of_range_noops_witness :
    EnumerateState.get ([3] : List Int) ⟨0, 0⟩ 2 = none ∧
    ZipState.get (ZipState.cons 0 (ZipState.last 0))
      (ZipStorage.cons [1] (ZipStorage.last ([2] : List Int))) 0 2 = none :=
  ⟨get_out_of_range_noops.1 Int [3] ⟨0, 0⟩ 2 (by decide),
   get_out_of_range_noops.2 Int
     (ZipStorage.cons [1] (ZipStorage.last ([2] : List Int)))
     (ZipState.cons 0 (ZipState.last 0)) 2 (by decide)⟩

/-- State-passing embedding of a `RangeImpl::operator*` call: the body
`return val_;` reads the value and assigns no member. -/
def RangeImpl.currentM (r : RangeImpl) : Int × RangeImpl := (r.val_, r)

/-- State-passing embedding of a `RangeImpl::operator bool` call (a const
member function): it evaluates the predicate and assigns no member. -/
def RangeImpl.has_moreM (r : RangeImpl) : Bool × RangeImpl := (r.has_more, r)

/-- State-passing embedding of an `enumerate::operator*` call: it returns
(a reference to) `state_` and assigns nothing. -/
def enumerate.currentM {α : Type} (g : enumerate α) (st : EnumerateState) :
    EnumerateState × EnumerateState := (st, st)

/-- State-passing embedding of an `enumerate::operator bool` call (const):
it compares `state_.iter_` against the end and assigns nothing. -/
def enumerate.has_moreM {α : Type} (g : enumerate α) (st : EnumerateState) :
    Bool × EnumerateState := (g.has_more st, st)

/-- State-passing embedding of a `zip::operator*` call: it returns (a
reference to) `state_` and assigns nothing. -/
def zip_currentM {α : Type} (σ : ZipStorage α) (st : ZipState) :
    ZipState × ZipState := (st, st)

/-- State-passing embedding of a `zip::operator bool` call (const): it
evaluates `state_.can_advance(storage_)` and assigns nothing. -/
def zip_has_moreM {α : Type} (σ : ZipStorage α) (st : ZipState) :
    Bool × ZipState := (st.can_advance σ, st)

/-- C9: for each generator (range, enumerate, zip) in any state, a
`current()` or `has_more()` call leaves the state unchanged, and a second
call without an intervening advance returns the same result. -/
theorem current_has_more_idempotent :
    (∀ r : RangeImpl, r.currentM.2 = r ∧ r.has_moreM.2 = r ∧
        (r.currentM.2).currentM.1 = r.currentM.1 ∧
        (r.has_moreM.2).has_moreM.1 = r.has_moreM.1)
    ∧ (∀ (α : Type) (g : enumerate α) (st : EnumerateState),
        (g.currentM st).2 = st ∧ (g.has_moreM st).2 = st ∧
        (g.currentM (g.currentM st).2).1 = (g.currentM st).1 ∧
        (g.has_moreM (g.has_moreM st).2).1 = (g.has_moreM st).1)
    ∧ (∀ (α : Type) (σ : ZipStorage α) (st : ZipState),
        (zip_currentM σ st).2 = st ∧ (zip_has_moreM σ st).2 = st ∧
        (zip_currentM σ (zip_currentM σ st).2).1 = (zip_currentM σ st).1 ∧
        (zip_has_moreM σ (zip_has_moreM σ st).2).1 = (zip_has_moreM σ st).1) :=
  ⟨fun r => ⟨rfl, rfl, rfl, rfl⟩,
   fun α g st => ⟨rfl, rfl, rfl, rfl⟩,
   fun α σ st => ⟨rfl, rfl, rfl, rfl⟩⟩

end UtilGen
